import Mathlib

/-!
Verification development for the AIR verification-condition engine:
expression/statement model, tree visitor, lowering passes and solver
session, embedded from the repository sources.
-/

/-- Values of the built-in sorts (booleans and integers). -/
inductive Value : Type
  | VBool (b : Bool)
  | VInt (z : Int)
  deriving DecidableEq, Repr

/-- Unary operators appearing in expressions. -/
inductive UnOp : Type
  | not
  deriving DecidableEq, Repr

/-- Binary operators appearing in expressions. -/
inductive BinOp : Type
  | eq
  | le
  | lt
  | ge
  | gt
  | implies
  | sub
  deriving DecidableEq, Repr

/-- N-ary operators appearing in expressions. -/
inductive MultiOp : Type
  | and
  | or
  | add
  deriving DecidableEq, Repr

mutual
/-- Expression trees (ast.rs `ExprX`), with the variable-identifier type as a
parameter so that the assignment-elimination pass can produce variables that
carry a generation number.  The source instantiates identifiers to strings. -/
inductive ExprP (α : Type) : Type
  | Const (v : Value)
  | Var (x : α)
  | Unary (op : UnOp) (e : ExprP α)
  | Binary (op : BinOp) (e1 : ExprP α) (e2 : ExprP α)
  | Multi (op : MultiOp) (es : ExprListP α)
  | LabeledAssertion (l : String) (e : ExprP α)

/-- Lists of expressions (the `Vec<Expr>` of an n-ary node). -/
inductive ExprListP (α : Type) : Type
  | nil
  | cons (e : ExprP α) (es : ExprListP α)
end

/-- Expressions as used by the source: identifiers are interned strings. -/
abbrev Expr := ExprP String

/-- Expression lists over string identifiers. -/
abbrev ExprList := ExprListP String

/-- Identifiers produced by assignment elimination: a name plus a generation. -/
abbrev GId := String × Nat

/-- Expressions after assignment elimination. -/
abbrev GExpr := ExprP GId

mutual
/-- Statement trees (ast.rs `StmtX`): assume, labeled assert, assign, block. -/
inductive StmtX : Type
  | Assume (e : Expr)
  | Assert (l : String) (e : Expr)
  | Assign (x : String) (e : Expr)
  | Block (ss : Stmts)

/-- Ordered statement lists (the `Vec<Stmt>` of a block). -/
inductive Stmts : Type
  | nil
  | cons (s : StmtX) (ss : Stmts)
end

/-- Coerce a `Value` to a boolean; non-boolean values count as false. -/
def truthy : Value → Bool
  | .VBool b => b
  | .VInt _ => false

/-- Coerce a `Value` to an integer; non-integer values count as 0. -/
def intOf : Value → Int
  | .VBool _ => 0
  | .VInt z => z

/-- Evaluate a unary operator. -/
def evalUn : UnOp → Value → Value
  | .not, v => .VBool (!(truthy v))

/-- Evaluate a binary operator. -/
def evalBin : BinOp → Value → Value → Value
  | .eq, v1, v2 => .VBool (v1 = v2)
  | .le, v1, v2 => .VBool (intOf v1 ≤ intOf v2)
  | .lt, v1, v2 => .VBool (intOf v1 < intOf v2)
  | .ge, v1, v2 => .VBool (intOf v2 ≤ intOf v1)
  | .gt, v1, v2 => .VBool (intOf v2 < intOf v1)
  | .implies, v1, v2 => .VBool (!(truthy v1) || truthy v2)
  | .sub, v1, v2 => .VInt (intOf v1 - intOf v2)

/-- Evaluate an n-ary operator over the list of argument values. -/
def evalMulti : MultiOp → List Value → Value
  | .and, vs => .VBool (vs.all truthy)
  | .or, vs => .VBool (vs.any truthy)
  | .add, vs => .VInt ((vs.map intOf).sum)

mutual
/-- Evaluate an expression under a valuation of its variables. -/
def evalP {α : Type} (σ : α → Value) : ExprP α → Value
  | .Const v => v
  | .Var x => σ x
  | .Unary op e => evalUn op (evalP σ e)
  | .Binary op e1 e2 => evalBin op (evalP σ e1) (evalP σ e2)
  | .Multi op es => evalMulti op (evalList σ es)
  | .LabeledAssertion _ e => evalP σ e

/-- Evaluate each expression of a list. -/
def evalList {α : Type} (σ : α → Value) : ExprListP α → List Value
  | .nil => []
  | .cons e es => evalP σ e :: evalList σ es
end

mutual
/-- visitor.rs `map_expr_visitor`: post-order rewrite of an expression.  The
Rust callback is an `FnMut` closure, modelled here as a function threading an
explicit mutable-capture state `S`; children are rewritten left to right and
then the rebuilt node is passed to `f`. -/
def map_expr_visitor {S : Type} (e : Expr) (f : S → Expr → S × Expr) (s : S) :
    S × Expr :=
  match e with
  | .Const _ => f s e
  | .Var _ => f s e
  | .Unary op e1 =>
      let r1 := map_expr_visitor e1 f s
      f r1.1 (.Unary op r1.2)
  | .Binary op e1 e2 =>
      let r1 := map_expr_visitor e1 f s
      let r2 := map_expr_visitor e2 f r1.1
      f r2.1 (.Binary op r1.2 r2.2)
  | .Multi op es =>
      let rs := map_exprs_visitor es f s
      f rs.1 (.Multi op rs.2)
  | .LabeledAssertion l e1 =>
      let r1 := map_expr_visitor e1 f s
      f r1.1 (.LabeledAssertion l r1.2)

/-- The `for e in es.iter()` loop of the `Multi` case: rewrite each element in
order, threading the callback state. -/
def map_exprs_visitor {S : Type} (es : ExprList) (f : S → Expr → S × Expr)
    (s : S) : S × ExprList :=
  match es with
  | .nil => (s, .nil)
  | .cons e rest =>
      let r1 := map_expr_visitor e f s
      let rs := map_exprs_visitor rest f r1.1
      (rs.1, .cons r1.2 rs.2)
end

/-- visitor.rs `map_stmt_expr_visitor`: rewrite the expression contained in a
statement bottom-up, then apply `f` once more to the rewritten expression;
a `Block` is returned unchanged (`stmt.clone()`). -/
def map_stmt_expr_visitor {S : Type} (st : StmtX) (f : S → Expr → S × Expr)
    (s : S) : S × StmtX :=
  match st with
  | .Assume e =>
      let r := map_expr_visitor e f s
      let r2 := f r.1 r.2
      (r2.1, .Assume r2.2)
  | .Assert l e =>
      let r := map_expr_visitor e f s
      let r2 := f r.1 r.2
      (r2.1, .Assert l r2.2)
  | .Assign x e =>
      let r := map_expr_visitor e f s
      let r2 := f r.1 r.2
      (r2.1, .Assign x r2.2)
  | .Block _ => (s, st)

mutual
/-- visitor.rs `map_stmt_visitor`: post-order rewrite of a statement tree;
the children of a block are rewritten in order before the rebuilt block is
passed to `f`. -/
def map_stmt_visitor {S : Type} (st : StmtX) (f : S → StmtX → S × StmtX)
    (s : S) : S × StmtX :=
  match st with
  | .Assume _ => f s st
  | .Assert _ _ => f s st
  | .Assign _ _ => f s st
  | .Block ss =>
      let rs := map_stmts_visitor ss f s
      f rs.1 (.Block rs.2)

/-- The `for s in ss.iter()` loop of the `Block` case. -/
def map_stmts_visitor {S : Type} (ss : Stmts) (f : S → StmtX → S × StmtX)
    (s : S) : S × Stmts :=
  match ss with
  | .nil => (s, .nil)
  | .cons st rest =>
      let r1 := map_stmt_visitor st f s
      let rs := map_stmts_visitor rest f r1.1
      (rs.1, .cons r1.2 rs.2)
end

/-! ## Reference semantics of statement trees

The sources of the data model (ast.rs) and of the two lowering passes
(var_to_const.rs, block_to_assert.rs) are not part of the extracted tree;
they are modelled below from the specification, with the behaviour of
nested blocks in the flattening pass fixed by the in-tree test
`yes_test_block_nest` (tests.rs). -/

/-- Runtime states of the imperative statement language: a valuation of the
mutable variables and constants. -/
abbrev State := String → Value

/-- Valuations of generation-stamped variables, the model of the constants
that assignment elimination introduces. -/
abbrev GState := GId → Value

/-- Pointwise function update used by the executable semantics. -/
def updF {α β : Type} [DecidableEq α] (f : α → β) (x : α) (v : β) : α → β :=
  fun y => if y = x then v else f y

mutual
/-- Modelled from the spec: the sequential execution of a statement from a
state (§3, §4.3).  `assign` mutates the state; an `assume` (or a checked
`assert`) whose condition is false stops the execution; a `block` is run in
sequence and, because mutation is lexically scoped to the block, the state in
force after it is the state from before it. -/
def mstep : StmtX → State → Option State
  | .Assume e, σ => if truthy (evalP σ e) then some σ else none
  | .Assert _ e, σ => if truthy (evalP σ e) then some σ else none
  | .Assign x e, σ => some (updF σ x (evalP σ e))
  | .Block ss, σ =>
      match mstepSeq ss σ with
      | some _ => some σ
      | none => none

/-- Modelled from the spec: run a statement list in order. -/
def mstepSeq : Stmts → State → Option State
  | .nil, σ => some σ
  | .cons s r, σ =>
      match mstep s σ with
      | some σ2 => mstepSeq r σ2
      | none => none
end

mutual
/-- Modelled from the spec: validity of one statement at one state — every
assertion reached by the execution holds (§3 Query, Glossary "Validity"). -/
def mok : StmtX → State → Bool
  | .Assume _, _ => true
  | .Assert _ e, σ => truthy (evalP σ e)
  | .Assign _ _, _ => true
  | .Block ss, σ => mokSeq ss σ

/-- Modelled from the spec: validity of a statement list run in order; the
statements after a stopped execution are unreachable and impose nothing. -/
def mokSeq : Stmts → State → Bool
  | .nil, _ => true
  | .cons s r, σ =>
      mok s σ &&
        match mstep s σ with
        | some σ2 => mokSeq r σ2
        | none => true
end

/-! ## Assignment-elimination pass (var_to_const.rs, modelled) -/

mutual
/-- Rename every variable of an expression through `f` (generation
stamping). -/
def mapVars {α β : Type} (f : α → β) : ExprP α → ExprP β
  | .Const v => .Const v
  | .Var x => .Var (f x)
  | .Unary op e => .Unary op (mapVars f e)
  | .Binary op e1 e2 => .Binary op (mapVars f e1) (mapVars f e2)
  | .Multi op es => .Multi op (mapVarsList f es)
  | .LabeledAssertion l e => .LabeledAssertion l (mapVars f e)

/-- Rename every variable of an expression list through `f`. -/
def mapVarsList {α β : Type} (f : α → β) : ExprListP α → ExprListP β
  | .nil => .nil
  | .cons e es => .cons (mapVars f e) (mapVarsList f es)
end

/-- Modelled from the spec (§4.3): rewrite the free variables of an
expression to their current generations. -/
def renameE (m : String → Nat) (e : Expr) : GExpr :=
  mapVars (fun x => (x, m x)) e

mutual
/-- Assign-free statement trees, the output language of assignment
elimination (§4.3 "Output: assign-free tree"). -/
inductive PStmt : Type
  | PAssume (e : GExpr)
  | PAssert (l : String) (e : GExpr)
  | PBlock (ss : PStmts)

/-- Ordered lists of assign-free statements. -/
inductive PStmts : Type
  | nil
  | cons (s : PStmt) (ss : PStmts)
end

mutual
/-- Modelled from the spec (§4.3, var_to_const.rs is not in the extracted
tree): manual SSA construction.  `m` maps each variable to its current
generation (initially 0), `c` to the next fresh generation.  An assignment
rewrites its right-hand side under the current generations, allocates a fresh
generation for the target and becomes `assume (x_new == rewritten rhs)`;
assignments to variables not declared mutable are a usage error (`none`);
block entry saves the generation map and block exit restores it, while fresh
generations are never reused. -/
def elimS (muts : List String) (m c : String → Nat) :
    StmtX → Option ((String → Nat) × (String → Nat) × PStmt)
  | .Assume e => some (m, c, .PAssume (renameE m e))
  | .Assert l e => some (m, c, .PAssert l (renameE m e))
  | .Assign x e =>
      if x ∈ muts then
        let n := c x
        some (updF m x n, updF c x (n + 1),
          .PAssume (.Binary .eq (.Var (x, n)) (renameE m e)))
      else none
  | .Block ss =>
      match elimL muts m c ss with
      | some (_, c2, ps) => some (m, c2, .PBlock ps)
      | none => none

/-- Modelled from the spec (§4.3): eliminate assignments from a statement
list in order, threading the generation state. -/
def elimL (muts : List String) (m c : String → Nat) :
    Stmts → Option ((String → Nat) × (String → Nat) × PStmts)
  | .nil => some (m, c, .nil)
  | .cons s r =>
      match elimS muts m c s with
      | some (m1, c1, p) =>
          match elimL muts m1 c1 r with
          | some (m2, c2, pr) => some (m2, c2, .cons p pr)
          | none => none
      | none => none
end

/-- Modelled from the spec: the initial generation map — every variable
starts at generation 0. -/
def genInit : String → Nat := fun _ => 0

/-- Modelled from the spec: the initial fresh-generation counter — generation
0 is in use, so the next fresh one is 1. -/
def cntInit : String → Nat := fun _ => 1

/-- Modelled from the spec: run assignment elimination on a query's statement
tree, keeping only the rewritten tree. -/
def elimTop (muts : List String) (s : StmtX) : Option PStmt :=
  match elimS muts genInit cntInit s with
  | some (_, _, p) => some p
  | none => none

/-! ## Control-flow-flattening pass (block_to_assert.rs, modelled) -/

/-- Turn a Lean list of expressions into an n-ary argument list. -/
def toExprList {α : Type} : List (ExprP α) → ExprListP α
  | [] => .nil
  | e :: es => .cons e (toExprList es)

/-- The conjunction of the current assumption list, in encounter order
(§4.4 "conjunction-of-current-assumptions"). -/
def conjG (assumptions : List GExpr) : GExpr :=
  .Multi .and (toExprList assumptions)

/-- The labeled implication emitted for one assertion (§4.4). -/
def impG (assumptions : List GExpr) (e : GExpr) : GExpr :=
  .Binary .implies (conjG assumptions) e

mutual
/-- Modelled from the spec (§4.4, block_to_assert.rs is not in the extracted
tree): flatten an assign-free statement, maintaining the ordered list of
accumulated assumption expressions and emitting one labeled implication per
assertion.  `assume e` appends `e`; `assert l e` emits
`(l, conjunction-of-assumptions ==> e)` and appends `e`.  A nested block
inherits the enclosing assumption list on entry; following the in-tree test
`yes_test_block_nest` (tests.rs), which expects Valid for a query whose final
assertion needs an assumption made inside an earlier nested block, a block is
flattened as pure sequencing, so its locally accumulated assumptions stay in
force after it (on this point the prose of §4.4 disagrees with the code's own
test; see `flattenSpecS` for the prose version). -/
def flattenS (a : List GExpr) : PStmt → List GExpr × List (String × GExpr)
  | .PAssume e => (a ++ [e], [])
  | .PAssert l e => (a ++ [e], [(l, impG a e)])
  | .PBlock ss => flattenL a ss

/-- Flatten an assign-free statement list in order, threading the assumption
list and concatenating the emitted labeled implications. -/
def flattenL (a : List GExpr) : PStmts → List GExpr × List (String × GExpr)
  | .nil => (a, [])
  | .cons p r =>
      let r1 := flattenS a p
      let r2 := flattenL r1.1 r
      (r2.1, r1.2 ++ r2.2)
end

mutual
/-- Modelled from the spec: the variant of the flattening pass that follows
the prose of §4.4 to the letter — a nested block restores the enclosing
assumption list on exit ("their locally accumulated assumptions do not
propagate back out on exit").  Kept separate so it can be compared against
the behaviour required by the code's tests. -/
def flattenSpecS (a : List GExpr) : PStmt → List GExpr × List (String × GExpr)
  | .PAssume e => (a ++ [e], [])
  | .PAssert l e => (a ++ [e], [(l, impG a e)])
  | .PBlock ss => (a, (flattenSpecL a ss).2)

/-- The statement-list traversal of `flattenSpecS`. -/
def flattenSpecL (a : List GExpr) : PStmts → List GExpr × List (String × GExpr)
  | .nil => (a, [])
  | .cons p r =>
      let r1 := flattenSpecS a p
      let r2 := flattenSpecL r1.1 r
      (r2.1, r1.2 ++ r2.2)
end

/-- The labeled implications of a fully lowered query: flattening starts from
the empty assumption list. -/
def flattenTop (p : PStmt) : List (String × GExpr) :=
  (flattenS [] p).2

/-! ## Semantics of the lowered forms -/

/-- All assumptions of the list hold at a valuation. -/
def satAll (a : List GExpr) (σ : GState) : Bool :=
  a.all (fun e => truthy (evalP σ e))

/-- All emitted labeled implications hold at a valuation. -/
def holdsAll (imps : List (String × GExpr)) (σ : GState) : Bool :=
  imps.all (fun le => truthy (evalP σ le.2))

mutual
/-- Validity of an assign-free statement at a fixed valuation: the condition
of every assertion reached holds. -/
def pok : PStmt → GState → Bool
  | .PAssume _, _ => true
  | .PAssert _ e, σ => truthy (evalP σ e)
  | .PBlock ss, σ => pokL ss σ

/-- Validity of an assign-free statement list at a fixed valuation. -/
def pokL : PStmts → GState → Bool
  | .nil, _ => true
  | .cons p r, σ => pok p σ && (!plive p σ || pokL r σ)

/-- Whether execution continues past an assign-free statement: fails exactly
when an assume or a checked assert is false at the valuation. -/
def plive : PStmt → GState → Bool
  | .PAssume e, σ => truthy (evalP σ e)
  | .PAssert _ e, σ => truthy (evalP σ e)
  | .PBlock ss, σ => pliveL ss σ

/-- Whether execution continues past an assign-free statement list. -/
def pliveL : PStmts → GState → Bool
  | .nil, _ => true
  | .cons p r, σ => plive p σ && pliveL r σ
end

/-! ## Solver session (context.rs) -/

/-- Prover tuning-parameter values: boolean, unsigned-integer (`u32`) and
floating-point (`f64`, modelled as a rational — only exact literals occur). -/
inductive PVal : Type
  | b (v : Bool)
  | u (v : Nat)
  | f (v : ℚ)
  deriving DecidableEq, Repr

/-- The string value handed to `Context::set_z3_param`, abstracted by the
branch of the source's parse that accepts it: the literal `"true"`, the
literal `"false"`, a string containing a `.` (parsed as `f64`), or any other
string (parsed as `u32`). -/
inductive SValue : Type
  | strTrue
  | strFalse
  | decimal (q : ℚ)
  | integer (n : Nat)
  deriving DecidableEq, Repr

/-- Declarations (ast.rs `Declaration`, modelled from the spec §3): a sort, a
constant, or a mutable variable, global or scoped. -/
inductive Decl : Type
  | declSort (s : String)
  | declConst (x : String) (ty : String)
  | declVar (x : String) (ty : String)
  deriving DecidableEq, Repr

/-- A query: local declarations plus one statement tree (§3). -/
structure QueryT : Type where
  decls : List Decl
  stmt : StmtX

/-- The mutable variables a query declares, the input of assignment
elimination. -/
def queryMuts (q : QueryT) : List String :=
  q.decls.filterMap (fun d =>
    match d with
    | .declVar x _ => some x
    | _ => none)

/-- Records written to the textual logs. -/
inductive LogRec : Type
  | pushR
  | popR
  | setOptionR (o : String) (v : PVal)
  | declR (d : Decl)
  | queryR (q : QueryT)
  | queryLoweredR (p : PStmt)

/-- The observable events of a session, in emission order: a record appended
to one of the three logs, an interaction with the prover, or the update of
the session's tracked resource-limit counter. -/
inductive Event : Type
  | logAirInit (r : LogRec)
  | logAirFinal (r : LogRec)
  | logSmt (r : LogRec)
  | solverPush
  | solverPop
  | solverSetParams (o : String) (v : PVal)
  | solverDecl (d : Decl)
  | solverCheck (imps : List (String × GExpr))
  | rlimitAssign (n : Nat)

/-- Is the event the writing of a log record? -/
def isLog : Event → Bool
  | .logAirInit _ => true
  | .logAirFinal _ => true
  | .logSmt _ => true
  | _ => false

/-- Is the event an interaction with the prover? -/
def isSolverOp : Event → Bool
  | .solverPush => true
  | .solverPop => true
  | .solverSetParams _ _ => true
  | .solverDecl _ => true
  | .solverCheck _ => true
  | _ => false

/-- The session state of context.rs `Context`: the declared-sorts table
(`typs`), the declared-constants table (`vars`), the tracked resource limit,
the prover's parameter assignments in the order applied, and the prover's
open-scope count. -/
structure ContextSt : Type where
  typs : List String
  vars : List String
  rlimit : Nat
  params : List (String × PVal)
  scopes : Nat

/-- The freshly created session (`Context::new`). -/
def ctxInit : ContextSt :=
  { typs := [], vars := [], rlimit := 0, params := [], scopes := 0 }

/-- The answer of one command (ast.rs `ValidityResult`, modelled from the
spec §3 and the uses in tests.rs). -/
inductive ValidityResult : Type
  | valid
  | invalid
  | error (msg : String)

/-- The prover oracle: given the lowered query's labeled implications it
answers Valid, Invalid or an error.  The session treats it as opaque. -/
abbrev Oracle := List (String × GExpr) → ValidityResult

/-- `Context::set_rlimit`: store the new limit in the session, then write a
`set-option` record to the two AIR logs (not to the SMT log). -/
def set_rlimit (st : ContextSt) (rl : Nat) : ContextSt × List Event :=
  ({ st with rlimit := rl },
    [.rlimitAssign rl,
     .logAirInit (.setOptionR "rlimit" (.u rl)),
     .logAirFinal (.setOptionR "rlimit" (.u rl))])

/-- `Context::log_set_z3_param`: write a `set-option` record to all three
logs. -/
def log_set_z3_param (o : String) (v : PVal) : List Event :=
  [.logAirInit (.setOptionR o v),
   .logAirFinal (.setOptionR o v),
   .logSmt (.setOptionR o v)]

/-- The `else` branch of `Context::set_z3_param_bool`: build a parameter set,
log when requested, and hand the parameter to the prover. -/
def set_z3_param_bool_base (st : ContextSt) (o : String) (value : Bool)
    (write_to_logs : Bool) : ContextSt × List Event :=
  ({ st with params := st.params ++ [(o, .b value)] },
    (if write_to_logs then log_set_z3_param o (.b value) else []) ++
      [.solverSetParams o (.b value)])

/-- `Context::set_z3_param_u32`: `rlimit` with logging updates the tracked
counter instead of being passed to the prover; anything else is logged and
handed to the prover. -/
def set_z3_param_u32 (st : ContextSt) (o : String) (value : Nat)
    (write_to_logs : Bool) : ContextSt × List Event :=
  if o = "rlimit" && write_to_logs then
    set_rlimit st value
  else
    ({ st with params := st.params ++ [(o, .u value)] },
      (if write_to_logs then log_set_z3_param o (.u value) else []) ++
        [.solverSetParams o (.u value)])

/-- `Context::set_z3_param_f64`. -/
def set_z3_param_f64 (st : ContextSt) (o : String) (value : ℚ)
    (write_to_logs : Bool) : ContextSt × List Event :=
  ({ st with params := st.params ++ [(o, .f value)] },
    (if write_to_logs then log_set_z3_param o (.f value) else []) ++
      [.solverSetParams o (.f value)])

/-- `Context::set_z3_param_bool`: the reserved name `air_recommended_options`
with value true expands, in order, into the seven recommended settings (each
inner call takes the non-reserved branch, written here as the `_base`/typed
helpers); any other name is set directly. -/
def set_z3_param_bool (st : ContextSt) (o : String) (value : Bool)
    (write_to_logs : Bool) : ContextSt × List Event :=
  if o = "air_recommended_options" && value then
    let r1 := set_z3_param_bool_base st "auto_config" false true
    let r2 := set_z3_param_bool_base r1.1 "smt.mbqi" false true
    let r3 := set_z3_param_u32 r2.1 "smt.case_split" 3 true
    let r4 := set_z3_param_f64 r3.1 "smt.qi.eager_threshold" 100 true
    let r5 := set_z3_param_bool_base r4.1 "smt.delay_units" true true
    let r6 := set_z3_param_u32 r5.1 "smt.arith.solver" 2 true
    let r7 := set_z3_param_bool_base r6.1 "smt.arith.nl" false true
    (r7.1, r1.2 ++ r2.2 ++ r3.2 ++ r4.2 ++ r5.2 ++ r6.2 ++ r7.2)
  else
    set_z3_param_bool_base st o value write_to_logs

/-- `Context::set_z3_param`: dispatch on the shape of the string value.  The
source's `"false"` branch passes `true` — embedded as written. -/
def set_z3_param (st : ContextSt) (o : String) (v : SValue) :
    ContextSt × List Event :=
  match v with
  | .strTrue => set_z3_param_bool st o true true
  | .strFalse => set_z3_param_bool st o true true
  | .decimal q => set_z3_param_f64 st o q true
  | .integer n => set_z3_param_u32 st o n true

/-- `Context::push`: log to all three logs, then push a prover scope. -/
def ctxPush (st : ContextSt) : ContextSt × List Event :=
  ({ st with scopes := st.scopes + 1 },
    [.logAirInit .pushR, .logAirFinal .pushR, .logSmt .pushR, .solverPush])

/-- `Context::pop`: log to all three logs, then pop a prover scope. -/
def ctxPop (st : ContextSt) : ContextSt × List Event :=
  ({ st with scopes := st.scopes - 1 },
    [.logAirInit .popR, .logAirFinal .popR, .logSmt .popR, .solverPop])

/-- `smt_verify::smt_add_decl` (not in the extracted tree).  Modelled from
the spec: the declaration is written to the SMT log and sent to the prover,
and registered in the session's tables. -/
def smt_add_decl (st : ContextSt) (d : Decl) : ContextSt × List Event :=
  (match d with
   | .declSort s => { st with typs := st.typs ++ [s] }
   | .declConst x _ => { st with vars := st.vars ++ [x] }
   | .declVar x _ => { st with vars := st.vars ++ [x] },
   [.logSmt (.declR d), .solverDecl d])

/-- `Context::global`: log the declaration to the two AIR logs, then add it
to the prover. -/
def ctxGlobal (st : ContextSt) (d : Decl) : ContextSt × List Event :=
  let r := smt_add_decl st d
  (r.1, [.logAirInit (.declR d), .logAirFinal (.declR d)] ++ r.2)

/-- `smt_verify::smt_check_query` (not in the extracted tree).  Modelled from
the spec (§4.5): the lowered query is written to the SMT log, submitted to
the prover, and the prover's answer is interpreted as the result. -/
def smt_check_query (oracle : Oracle) (st : ContextSt) (p : PStmt)
    (imps : List (String × GExpr)) : (ContextSt × List Event) × ValidityResult :=
  ((st, [.logSmt (.queryLoweredR p), .solverCheck imps]), oracle imps)

/-- `Context::check_valid`: log the query as submitted, run the
assignment-elimination pass then the control-flow-flattening pass, log the
lowered query, and submit it.  A lowering error is a usage error and aborts
before any prover interaction. -/
def check_valid (oracle : Oracle) (st : ContextSt) (q : QueryT) :
    (ContextSt × List Event) × ValidityResult :=
  match elimTop (queryMuts q) q.stmt with
  | some p =>
      let r := smt_check_query oracle st p (flattenTop p)
      ((r.1.1,
        [.logAirInit (.queryR q), .logAirFinal (.queryLoweredR p)] ++ r.1.2),
        r.2)
  | none =>
      ((st, [.logAirInit (.queryR q)]), .error "lowering")

/-- Commands accepted by the session (ast.rs `CommandX`). -/
inductive Command : Type
  | Push
  | Pop
  | SetOption (o : String) (v : SValue)
  | Global (d : Decl)
  | CheckValid (q : QueryT)

/-- `Context::command`: dispatch one command.  As in the source, the `Pop`
arm calls `self.push()`. -/
def command (oracle : Oracle) (st : ContextSt) :
    Command → (ContextSt × List Event) × ValidityResult
  | .Push => (ctxPush st, .valid)
  | .Pop => (ctxPush st, .valid)
  | .SetOption o v => (set_z3_param st o v, .valid)
  | .Global d => (ctxGlobal st d, .valid)
  | .CheckValid q => check_valid oracle st q

/-- Run a command sequence in program order, collecting all events in
emission order. -/
def commandSeq (oracle : Oracle) (st : ContextSt) :
    List Command → ContextSt × List Event
  | [] => (st, [])
  | c :: r =>
      let r1 := command oracle st c
      let r2 := commandSeq oracle r1.1.1 r
      (r2.1, r1.1.2 ++ r2.2)

/-- The claim's per-operation ordering property: every log record of the
operation's event trace is written before any non-log event (any application
to the live session). -/
def allLogsFirst (evs : List Event) : Bool :=
  (evs.dropWhile isLog).all (fun e => !isLog e)

/-- The commands whose event trace is not simply logs-then-applications: a
`set-option` that expands recursively (the recommended-options bundle — also
reached with value `"false"` because of the bug recorded at C5) and the
reserved `rlimit` option. -/
def specialOption : Command → Bool
  | .SetOption o .strTrue => o = "air_recommended_options"
  | .SetOption o .strFalse => o = "air_recommended_options"
  | .SetOption o (.integer _) => o = "rlimit"
  | _ => false

/-- The event trace of one expanded parameter of the recommended-options
bundle: three log records, then the application to the prover. -/
def paramBlock (o : String) (v : PVal) : List Event :=
  log_set_z3_param o v ++ [.solverSetParams o v]

/-! ## The block-scoping queries of tests.rs -/

/-- `x > 3` over the query variable `x`. -/
def eGt3 : Expr := .Binary .gt (.Var "x") (.Const (.VInt 3))

/-- `x >= 3`. -/
def eGe3 : Expr := .Binary .ge (.Var "x") (.Const (.VInt 3))

/-- `x > 5`. -/
def eGt5 : Expr := .Binary .gt (.Var "x") (.Const (.VInt 5))

/-- `x >= 5`. -/
def eGe5 : Expr := .Binary .ge (.Var "x") (.Const (.VInt 5))

/-- The statement of tests.rs `yes_test_block_nest`: assume `x > 3`, then a
nested block asserting `x >= 3` and assuming `x > 5`, then — after the
block — assert `x >= 5`. -/
def nestStmt : StmtX :=
  .Block (.cons (.Assume eGt3)
    (.cons (.Block (.cons (.Assert "assert1" eGe3) (.cons (.Assume eGt5) .nil)))
      (.cons (.Assert "assert2" eGe5) .nil)))

/-- The query of tests.rs `yes_test_block_nest` (declare-const x Int). -/
def nestQuery : QueryT := { decls := [.declConst "x" "Int"], stmt := nestStmt }

/-- The statement of tests.rs `no_test_block`: the reordered variant in which
`x >= 5` is checked before `x > 5` is assumed. -/
def noBlockStmt : StmtX :=
  .Block (.cons (.Assume eGt3)
    (.cons (.Assert "assert1" eGe3)
      (.cons (.Assert "assert2" eGe5) (.cons (.Assume eGt5) .nil))))

/-- The query of tests.rs `no_test_block`. -/
def noBlockQuery : QueryT := { decls := [.declConst "x" "Int"], stmt := noBlockStmt }

/-- The result tests.rs expects for `yes_test_block_nest` (it is a `yes!`
test: every command must answer Valid). -/
def nestExpected : ValidityResult := .valid

/-- Modelled from the spec (§4.5, smt_verify.rs is not in the extracted
tree): `check-valid` answers Valid exactly when the lowered implications hold
in every model — the prover oracle reporting unsatisfiability of the negated
query. -/
def CheckValidReturnsValid (q : QueryT) : Prop :=
  ∃ p, elimTop (queryMuts q) q.stmt = some p ∧
    ∀ σ : GState, holdsAll (flattenTop p) σ = true

/-- Modelled from the spec (§4.5): `check-valid` answers Invalid exactly when
some valuation satisfies the negation of an emitted labeled implication. -/
def CheckValidReturnsInvalid (q : QueryT) : Prop :=
  ∃ p, elimTop (queryMuts q) q.stmt = some p ∧
    ∃ σ : GState, holdsAll (flattenTop p) σ = false

/-- The lowered form of `nestStmt` (no assignments, every variable at
generation 0). -/
def pNest : PStmt :=
  .PBlock (.cons (.PAssume (renameE genInit eGt3))
    (.cons (.PBlock (.cons (.PAssert "assert1" (renameE genInit eGe3))
      (.cons (.PAssume (renameE genInit eGt5)) .nil)))
      (.cons (.PAssert "assert2" (renameE genInit eGe5)) .nil)))

/-- The lowered form of `noBlockStmt`. -/
def pNoBlock : PStmt :=
  .PBlock (.cons (.PAssume (renameE genInit eGt3))
    (.cons (.PAssert "assert1" (renameE genInit eGe3))
      (.cons (.PAssert "assert2" (renameE genInit eGe5))
        (.cons (.PAssume (renameE genInit eGt5)) .nil))))

/-- The replay state used to prove adequacy of assignment elimination: the
generation map and counter threaded exactly as by the pass, the mutable
state of the reference execution, the stamped valuation built so far, and
whether execution is still live. -/
structure CollSt : Type where
  m : String → Nat
  c : String → Nat
  st : State
  g : GState
  live : Bool

mutual
/-- Replay one statement: thread the pass's generation bookkeeping together
with the reference execution, recording at each live assignment the assigned
value at the freshly allocated generation. -/
def collectS (r : CollSt) : StmtX → CollSt
  | .Assume e => { r with live := r.live && truthy (evalP r.st e) }
  | .Assert _ e => { r with live := r.live && truthy (evalP r.st e) }
  | .Assign x e =>
      { m := updF r.m x (r.c x), c := updF r.c x (r.c x + 1),
        st := updF r.st x (evalP r.st e),
        g := if r.live then updF r.g (x, r.c x) (evalP r.st e) else r.g,
        live := r.live }
  | .Block ss =>
      { m := r.m, c := (collectL r ss).c, st := r.st, g := (collectL r ss).g,
        live := (collectL r ss).live }

/-- Replay a statement list in order. -/
def collectL (r : CollSt) : Stmts → CollSt
  | .nil => r
  | .cons s rest => collectL (collectS r s) rest
end

/-- A query with one assignment, used to instantiate `c2`. -/
def c2s0 : StmtX :=
  .Block (.cons (.Assign "x" (.Const (.VInt 1)))
    (.cons (.Assert "a" (.Binary .eq (.Var "x") (.Const (.VInt 1)))) .nil))

/-- The eliminated form of `c2s0`: the assignment becomes an assumption about
the fresh generation 1 of `x`. -/
def c2p0 : PStmt :=
  .PBlock (.cons (.PAssume (.Binary .eq (.Var ("x", 1)) (.Const (.VInt 1))))
    (.cons (.PAssert "a" (.Binary .eq (.Var ("x", 1)) (.Const (.VInt 1)))) .nil))

/-! ## Claims about the tree visitor -/

/-- C9: the tree visitor's rewrite is a post-order walk.  For every callback
`f` (with its `FnMut` state threaded explicitly, children visited left to
right), the result on each compound node — unary, binary, n-ary and labeled
expressions, and blocks of statements — equals `f` applied, in the state left
by rewriting the children, to the node rebuilt from the recursively rewritten
children. -/
theorem c9_visitor_postorder (S : Type) (f : S → Expr → S × Expr)
    (g : S → StmtX → S × StmtX) (s : S) :
    (∀ (op : UnOp) (e1 : Expr),
      map_expr_visitor (.Unary op e1) f s =
        f (map_expr_visitor e1 f s).1 (.Unary op (map_expr_visitor e1 f s).2)) ∧
    (∀ (op : BinOp) (e1 e2 : Expr),
      map_expr_visitor (.Binary op e1 e2) f s =
        f (map_expr_visitor e2 f (map_expr_visitor e1 f s).1).1
          (.Binary op (map_expr_visitor e1 f s).2
            (map_expr_visitor e2 f (map_expr_visitor e1 f s).1).2)) ∧
    (∀ (op : MultiOp) (es : ExprList),
      map_expr_visitor (.Multi op es) f s =
        f (map_exprs_visitor es f s).1 (.Multi op (map_exprs_visitor es f s).2)) ∧
    (∀ (l : String) (e1 : Expr),
      map_expr_visitor (.LabeledAssertion l e1) f s =
        f (map_expr_visitor e1 f s).1
          (.LabeledAssertion l (map_expr_visitor e1 f s).2)) ∧
    (∀ (e : Expr) (es : ExprList),
      map_exprs_visitor (.cons e es) f s =
        ((map_exprs_visitor es f (map_expr_visitor e f s).1).1,
          .cons (map_expr_visitor e f s).2
            (map_exprs_visitor es f (map_expr_visitor e f s).1).2)) ∧
    (∀ ss : Stmts,
      map_stmt_visitor (.Block ss) g s =
        g (map_stmts_visitor ss g s).1 (.Block (map_stmts_visitor ss g s).2)) := by
  refine ⟨fun op e1 => ?_, fun op e1 e2 => ?_, fun op es => ?_,
    fun l e1 => ?_, fun e es => ?_, fun ss => ?_⟩ <;> rfl

/-- C10: `map_stmt_expr_visitor` leaves a `Block` unchanged — no contained
expression is rewritten and the callback state is untouched — while for
`Assume`, `Assert` and `Assign` it rewrites the contained expression
bottom-up and then applies `f` once more to the rewritten top-level
expression. -/
theorem c10_stmt_expr_visitor (S : Type) (f : S → Expr → S × Expr) (s : S) :
    (∀ ss : Stmts, map_stmt_expr_visitor (.Block ss) f s = (s, .Block ss)) ∧
    (∀ e : Expr,
      map_stmt_expr_visitor (.Assume e) f s =
        ((f (map_expr_visitor e f s).1 (map_expr_visitor e f s).2).1,
          .Assume (f (map_expr_visitor e f s).1 (map_expr_visitor e f s).2).2)) ∧
    (∀ (l : String) (e : Expr),
      map_stmt_expr_visitor (.Assert l e) f s =
        ((f (map_expr_visitor e f s).1 (map_expr_visitor e f s).2).1,
          .Assert l (f (map_expr_visitor e f s).1 (map_expr_visitor e f s).2).2)) ∧
    (∀ (x : String) (e : Expr),
      map_stmt_expr_visitor (.Assign x e) f s =
        ((f (map_expr_visitor e f s).1 (map_expr_visitor e f s).2).1,
          .Assign x (f (map_expr_visitor e f s).1 (map_expr_visitor e f s).2).2)) := by
  refine ⟨fun ss => ?_, fun e => ?_, fun l e => ?_, fun x e => ?_⟩ <;> rfl

/-! ## Claims about the solver session -/

/-- C1 (code bug): the `Pop` arm of `Context::command` calls `self.push()`,
so processing the command `Pop` behaves exactly like `Push`: it increments
the open-scope count — in particular from 0 to 1, where the claim demands a
usage error — instead of decrementing it and discarding the scope. -/
theorem c1_command_pop_behaves_as_push (oracle : Oracle) (st : ContextSt) :
    command oracle st .Pop = command oracle st .Push ∧
    ((command oracle st .Pop).1.1).scopes = st.scopes + 1 ∧
    ((command oracle ctxInit .Pop).1.1).scopes = 1 ∧
    (command oracle ctxInit .Pop).2 = .valid := by
  exact ⟨rfl, rfl, rfl, rfl⟩

/-- C5 (code bug): the `"false"` branch of `Context::set_z3_param` passes
`true`, so processing `SetOption(name, "false")` for a non-reserved name
hands the prover the parameter set to *true*: the parameter assignment
recorded is `(name, true)` and so is the value logged. -/
theorem c5_set_option_false_sets_true (oracle : Oracle) (st : ContextSt) :
    ((command oracle st (.SetOption "smt.mbqi" .strFalse)).1.1).params =
      st.params ++ [("smt.mbqi", .b true)] ∧
    (command oracle st (.SetOption "smt.mbqi" .strFalse)).1.2 =
      log_set_z3_param "smt.mbqi" (.b true) ++
        [.solverSetParams "smt.mbqi" (.b true)] := by
  exact ⟨rfl, rfl⟩

/-- C6: `SetOption("air_recommended_options", "true")` expands, in this fixed
order, into exactly: disable auto-configuration, disable model-based
quantifier instantiation, case-split strategy 3, eager
quantifier-instantiation threshold 100, enable unit-propagation delay,
arithmetic solver 2, and disable nonlinear arithmetic — each passed to the
prover with the listed value. -/
theorem c6_recommended_options_bundle (oracle : Oracle) (st : ContextSt) :
    ((command oracle st (.SetOption "air_recommended_options" .strTrue)).1.1).params =
      st.params ++
        [("auto_config", .b false),
         ("smt.mbqi", .b false),
         ("smt.case_split", .u 3),
         ("smt.qi.eager_threshold", .f 100),
         ("smt.delay_units", .b true),
         ("smt.arith.solver", .u 2),
         ("smt.arith.nl", .b false)] ∧
    ((command oracle st (.SetOption "air_recommended_options" .strTrue)).1.2).filter
        isSolverOp =
      [.solverSetParams "auto_config" (.b false),
       .solverSetParams "smt.mbqi" (.b false),
       .solverSetParams "smt.case_split" (.u 3),
       .solverSetParams "smt.qi.eager_threshold" (.f 100),
       .solverSetParams "smt.delay_units" (.b true),
       .solverSetParams "smt.arith.solver" (.u 2),
       .solverSetParams "smt.arith.nl" (.b false)] := by
  constructor
  · show st.params ++ [("auto_config", PVal.b false)] ++ [("smt.mbqi", PVal.b false)] ++
      [("smt.case_split", PVal.u 3)] ++ [("smt.qi.eager_threshold", PVal.f 100)] ++
      [("smt.delay_units", PVal.b true)] ++ [("smt.arith.solver", PVal.u 2)] ++
      [("smt.arith.nl", PVal.b false)] = _
    simp
  · rfl

/-- C7: `SetOption("rlimit", v)` (an undotted numeric value takes the `u32`
branch) updates the session's tracked resource-limit counter to `v`, emits no
prover interaction at all — in particular the option is not forwarded to the
prover — and leaves the declared-sorts table, the declared-constants table,
the prover parameters and the open-scope count unchanged. -/
theorem c7_rlimit_updates_counter_only (oracle : Oracle) (st : ContextSt)
    (n : Nat) :
    ((command oracle st (.SetOption "rlimit" (.integer n))).1.1).rlimit = n ∧
    ((command oracle st (.SetOption "rlimit" (.integer n))).1.1).typs = st.typs ∧
    ((command oracle st (.SetOption "rlimit" (.integer n))).1.1).vars = st.vars ∧
    ((command oracle st (.SetOption "rlimit" (.integer n))).1.1).params = st.params ∧
    ((command oracle st (.SetOption "rlimit" (.integer n))).1.1).scopes = st.scopes ∧
    ((command oracle st (.SetOption "rlimit" (.integer n))).1.2).filter isSolverOp =
      [] := by
  exact ⟨rfl, rfl, rfl, rfl, rfl, rfl⟩

/-- C8 (counterexample): for the operation `SetOption("rlimit", 30)` the
session's tracked resource-limit counter is updated *before* the operation's
log records are written — the trace starts with the state update — so the
claim that every operation's log record is written before the operation is
applied to the live session fails at this input. -/
theorem c8_counterexample_rlimit_logged_after_update :
    (command (fun _ => .valid) ctxInit (.SetOption "rlimit" (.integer 30))).1.2 =
      [.rlimitAssign 30,
       .logAirInit (.setOptionR "rlimit" (.u 30)),
       .logAirFinal (.setOptionR "rlimit" (.u 30))] ∧
    allLogsFirst
      ((command (fun _ => .valid) ctxInit (.SetOption "rlimit" (.integer 30))).1.2) =
      false := by
  exact ⟨rfl, rfl⟩

/-- C8 (amended): commands are processed in order, each contributing its
event block to the trace in application order; for every command other than
the recursively expanding `set-option` bundle and the reserved `rlimit`
option, all log records are written before any application; the bundle is a
sequence of seven parameter settings, each individually logged before being
applied; and `rlimit` updates the tracked counter first and then writes its
record to the two parallel AIR logs (the pre-lowering and the post-lowering
one), with no prover interaction. -/
theorem c8_amended_logging (oracle : Oracle) (st : ContextSt) :
    (∀ (c : Command) (cs : List Command),
      (commandSeq oracle st (c :: cs)).2 =
        (command oracle st c).1.2 ++
          (commandSeq oracle ((command oracle st c).1.1) cs).2) ∧
    (∀ cmd : Command, specialOption cmd = false →
      allLogsFirst ((command oracle st cmd).1.2) = true) ∧
    ((command oracle st (.SetOption "air_recommended_options" .strTrue)).1.2 =
      paramBlock "auto_config" (.b false) ++ paramBlock "smt.mbqi" (.b false) ++
        paramBlock "smt.case_split" (.u 3) ++
        paramBlock "smt.qi.eager_threshold" (.f 100) ++
        paramBlock "smt.delay_units" (.b true) ++
        paramBlock "smt.arith.solver" (.u 2) ++
        paramBlock "smt.arith.nl" (.b false)) ∧
    (∀ (o : String) (v : PVal), allLogsFirst (paramBlock o v) = true) ∧
    (∀ n : Nat,
      (command oracle st (.SetOption "rlimit" (.integer n))).1.2 =
        [.rlimitAssign n,
         .logAirInit (.setOptionR "rlimit" (.u n)),
         .logAirFinal (.setOptionR "rlimit" (.u n))]) := by
  refine ⟨fun c cs => rfl, fun cmd h => ?_, rfl, fun o v => rfl, fun n => rfl⟩
  cases cmd with
  | Push => rfl
  | Pop => rfl
  | Global d => rfl
  | CheckValid q =>
      cases h2 : elimTop (queryMuts q) q.stmt with
      | some p =>
          simp only [command, check_valid, smt_check_query, h2]
          rfl
      | none =>
          simp only [command, check_valid, h2]
          rfl
  | SetOption o v =>
      cases v with
      | strTrue =>
          have hx : (decide (o = "air_recommended_options")) = false := by
            simpa [specialOption] using h
          simp only [command, set_z3_param, set_z3_param_bool, hx,
            Bool.false_and, Bool.and_true, if_false]
          rfl
      | strFalse =>
          have hx : (decide (o = "air_recommended_options")) = false := by
            simpa [specialOption] using h
          simp only [command, set_z3_param, set_z3_param_bool, hx,
            Bool.false_and, Bool.and_true, if_false]
          rfl
      | decimal q => rfl
      | integer n =>
          have hx : (decide (o = "rlimit")) = false := by
            simpa [specialOption] using h
          simp only [command, set_z3_param, set_z3_param_u32, hx,
            Bool.false_and, Bool.and_true, if_false]
          rfl

/-- Witness for C8's amended theorem: the `Push` command's trace is
logs-then-application. -/
theorem c8_amended_logging_witness :
    allLogsFirst ((command (fun _ => .valid) ctxInit .Push).1.2) = true :=
  (c8_amended_logging (fun _ => .valid) ctxInit).2.1 .Push (by decide)

/-- The lowered nested-block query holds at every valuation of `x` (its two
labeled implications only read the generation-0 value of `x`). -/
theorem nest_imps_hold_val (v : Value) :
    holdsAll (flattenTop pNest) (fun _ => v) = true := by
  have h1 : flattenTop pNest =
      [("assert1", impG [renameE genInit eGt3] (renameE genInit eGe3)),
       ("assert2", impG [renameE genInit eGt3, renameE genInit eGe3,
          renameE genInit eGt5] (renameE genInit eGe5))] := rfl
  rw [h1]
  simp only [holdsAll, List.all_cons, List.all_nil, Bool.and_true,
    Bool.and_eq_true]
  simp only [impG, conjG, toExprList, renameE, genInit, mapVars, mapVarsList,
    eGt3, eGe3, eGt5, eGe5, evalP, evalList, evalBin, evalMulti, truthy]
  cases v with
  | VBool b => simp [intOf, truthy]
  | VInt z =>
      simp only [intOf, truthy, List.all_cons, List.all_nil, Bool.and_true]
      constructor
      · by_cases h3 : (3 : Int) < z <;> simp [h3] <;> omega
      · by_cases h3 : (3 : Int) < z <;> by_cases h5 : (5 : Int) < z <;>
          simp [h3, h5] <;> omega

/-- The lowered nested-block query holds at every valuation. -/
theorem nest_imps_hold (σ : GState) : holdsAll (flattenTop pNest) σ = true :=
  nest_imps_hold_val (σ ("x", 0))

/-- C3: the nested-block query of `yes_test_block_nest` — assume `x > 3`, a
nested block with assert `x >= 3` then assume `x > 5`, then assert `x >= 5`
after the block — checks Valid, and the reordered variant of
`no_test_block`, in which `x >= 5` is checked before `x > 5` is assumed,
checks Invalid (valuation `x = 4` violates its second implication). -/
theorem c3_nested_block_queries :
    CheckValidReturnsValid nestQuery ∧ CheckValidReturnsInvalid noBlockQuery := by
  constructor
  · exact ⟨pNest, rfl, nest_imps_hold⟩
  · exact ⟨pNoBlock, rfl, fun _ => Value.VInt 4, by decide⟩

/-- C4 (counterexample): the flattening pass does *not* restore the
assumption list at block exit.  Concretely: flattening the block
`{ assume (x > 5) }` under the assumption list `[x > 3]` leaves the
assumption list `[x > 3, x > 5]`, not `[x > 3]`; and on the nested-block
test query the claimed restore-on-exit behaviour (`flattenSpecS`) would
produce an implication refuted at `x = 4` — an Invalid answer — while the
pass as exercised by the in-tree test `yes_test_block_nest` produces
implications that hold at `x = 4`, matching the Valid the test expects. -/
theorem c4_counterexample_block_assumptions_escape :
    (flattenS [renameE genInit eGt3]
        (.PBlock (.cons (.PAssume (renameE genInit eGt5)) .nil))).1 =
      [renameE genInit eGt3, renameE genInit eGt5] ∧
    [renameE genInit eGt3, renameE genInit eGt5] ≠ [renameE genInit eGt3] ∧
    holdsAll ((flattenSpecS [] pNest).2) (fun _ => Value.VInt 4) = false ∧
    holdsAll (flattenTop pNest) (fun _ => Value.VInt 4) = true ∧
    nestExpected = .valid := by
  refine ⟨rfl, by simp, by decide, by decide, rfl⟩

/-- C4 (amended): a nested block starts from the enclosing assumption list,
and every assumption accumulated inside it — whether from an assume or from
a checked assert, which still appends its expression — remains in the
assumption list in force after the block: a block is flattened as pure
sequencing, which is what lets the nested-block test query check Valid. -/
theorem c4_amended_block_assumptions_propagate (a : List GExpr) :
    (∀ ss : PStmts, flattenS a (.PBlock ss) = flattenL a ss) ∧
    (∀ (l : String) (e : GExpr),
      flattenS a (.PAssert l e) = (a ++ [e], [(l, impG a e)])) ∧
    (∀ e : GExpr, flattenS a (.PAssume e) = (a ++ [e], [])) ∧
    (∀ σ : GState, holdsAll (flattenTop pNest) σ = true) :=
  ⟨fun _ => rfl, fun _ _ => rfl, fun _ => rfl, nest_imps_hold⟩

/-! ## Correctness of the lowering passes -/

mutual
/-- Renaming commutes with evaluation: evaluating a renamed expression reads
the valuation through the renaming. -/
theorem evalP_mapVars {α β : Type} (f : α → β) (σ : β → Value) (e : ExprP α) :
    evalP σ (mapVars f e) = evalP (fun x => σ (f x)) e := by
  cases e with
  | Const v => rfl
  | Var x => rfl
  | Unary op e1 => simp [mapVars, evalP, evalP_mapVars f σ e1]
  | Binary op e1 e2 =>
      simp [mapVars, evalP, evalP_mapVars f σ e1, evalP_mapVars f σ e2]
  | Multi op es => simp [mapVars, evalP, evalList_mapVars f σ es]
  | LabeledAssertion l e1 => simp [mapVars, evalP, evalP_mapVars f σ e1]

/-- Renaming commutes with evaluation of expression lists. -/
theorem evalList_mapVars {α β : Type} (f : α → β) (σ : β → Value)
    (es : ExprListP α) :
    evalList σ (mapVarsList f es) = evalList (fun x => σ (f x)) es := by
  cases es with
  | nil => rfl
  | cons e rest =>
      simp [mapVarsList, evalList, evalP_mapVars f σ e, evalList_mapVars f σ rest]
end

/-- Generation stamping evaluates like the original expression whenever the
stamped valuation agrees with the plain one on the current generations. -/
theorem evalP_renameE (m : String → Nat) (σ2 : GState) (σ : State)
    (hc : ∀ x, σ2 (x, m x) = σ x) (e : Expr) :
    evalP σ2 (renameE m e) = evalP σ e := by
  rw [renameE, evalP_mapVars]
  congr 1
  funext x
  exact hc x

/-- `evalList` over a converted Lean list is a `map`. -/
theorem evalList_toExprList {α : Type} (σ : α → Value) (a : List (ExprP α)) :
    evalList σ (toExprList a) = a.map (evalP σ) := by
  induction a with
  | nil => rfl
  | cons e r ih => simp [toExprList, evalList, ih]

/-- The conjunction of an assumption list is true exactly when every listed
assumption is. -/
theorem truthy_conjG (a : List GExpr) (σ : GState) :
    truthy (evalP σ (conjG a)) = satAll a σ := by
  induction a with
  | nil => rfl
  | cons e r ih =>
      show (evalP σ e :: evalList σ (toExprList r)).all truthy = _
      rw [List.all_cons,
        show (evalList σ (toExprList r)).all truthy =
          truthy (evalP σ (conjG r)) from rfl, ih]
      rfl

/-- `satAll` over an appended singleton. -/
theorem satAll_append_one (a : List GExpr) (e : GExpr) (σ : GState) :
    satAll (a ++ [e]) σ = (satAll a σ && truthy (evalP σ e)) := by
  simp [satAll, List.all_append]

/-- `holdsAll` over an append. -/
theorem holdsAll_append (o1 o2 : List (String × GExpr)) (σ : GState) :
    holdsAll (o1 ++ o2) σ = (holdsAll o1 σ && holdsAll o2 σ) := by
  simp [holdsAll, List.all_append]

mutual
/-- Soundness and completeness of the flattening pass at one valuation:
under assumption list `a`, the emitted implications hold exactly when the
statement is valid whenever `a` holds, and the resulting assumption list
holds exactly when `a` holds and execution survives the statement. -/
theorem flatten_sound_S (p : PStmt) (a : List GExpr) (σ : GState) :
    (holdsAll (flattenS a p).2 σ = true ↔
      (satAll a σ = true → pok p σ = true)) ∧
    (satAll (flattenS a p).1 σ = true ↔
      (satAll a σ = true ∧ plive p σ = true)) := by
  cases p with
  | PAssume e =>
      constructor
      · simp [flattenS, holdsAll, pok]
      · simp [flattenS, satAll_append_one, plive, Bool.and_eq_true]
  | PAssert l e =>
      constructor
      · have hh : holdsAll (flattenS a (.PAssert l e)).2 σ =
            (!(truthy (evalP σ (conjG a))) || truthy (evalP σ e)) := by
          show (truthy (evalP σ (impG a e)) && true) = _
          rw [Bool.and_true]
          rfl
        rw [hh, truthy_conjG]
        have hk : ∀ b c : Bool, ((!b || c) = true) ↔ (b = true → c = true) := by
          decide
        rw [hk]
        show _ ↔ (satAll a σ = true → pok (.PAssert l e) σ = true)
        rfl
      · simp [flattenS, satAll_append_one, plive, Bool.and_eq_true]
  | PBlock ss =>
      have h := flatten_sound_L ss a σ
      simpa [flattenS, pok, plive] using h

/-- The statement-list form of `flatten_sound_S`. -/
theorem flatten_sound_L (ps : PStmts) (a : List GExpr) (σ : GState) :
    (holdsAll (flattenL a ps).2 σ = true ↔
      (satAll a σ = true → pokL ps σ = true)) ∧
    (satAll (flattenL a ps).1 σ = true ↔
      (satAll a σ = true ∧ pliveL ps σ = true)) := by
  cases ps with
  | nil => simp [flattenL, holdsAll, pokL, pliveL]
  | cons p r =>
      obtain ⟨h1a, h1b⟩ := flatten_sound_S p a σ
      obtain ⟨h2a, h2b⟩ := flatten_sound_L r (flattenS a p).1 σ
      have hk : ∀ b c : Bool, ((!b || c) = true) ↔ (b = true → c = true) := by
        decide
      have e2 : (flattenL a (.cons p r)).2 =
          (flattenS a p).2 ++ (flattenL (flattenS a p).1 r).2 := rfl
      have e1 : (flattenL a (.cons p r)).1 = (flattenL (flattenS a p).1 r).1 := rfl
      have hp : pokL (.cons p r) σ = (pok p σ && (!plive p σ || pokL r σ)) := rfl
      have hv : pliveL (.cons p r) σ = (plive p σ && pliveL r σ) := rfl
      constructor
      · rw [e2, holdsAll_append, Bool.and_eq_true, hp]
        constructor
        · rintro ⟨ha, hb⟩ hA
          rw [Bool.and_eq_true, hk]
          exact ⟨h1a.mp ha hA, fun hL => h2a.mp hb (h1b.mpr ⟨hA, hL⟩)⟩
        · intro hi
          constructor
          · refine h1a.mpr fun hA => ?_
            have := hi hA
            rw [Bool.and_eq_true] at this
            exact this.1
          · refine h2a.mpr fun hA1 => ?_
            obtain ⟨hA, hL⟩ := h1b.mp hA1
            have := hi hA
            rw [Bool.and_eq_true, hk] at this
            exact this.2 hL
      · rw [e1, h2b, hv, Bool.and_eq_true, h1b]
        tauto
end

mutual
/-- Completeness of assignment elimination at one stamped valuation: when the
stamped valuation agrees with the mutable state on current generations, a
statement valid at the mutable state yields a valid eliminated statement, and
survival of the eliminated statement reproduces the execution step together
with agreement on the exit generations. -/
theorem elim_complete_S (s : StmtX) : ∀ (muts : List String)
    (m c m2 c2 : String → Nat) (p : PStmt) (σ : State) (σ2 : GState),
    elimS muts m c s = some (m2, c2, p) →
    (∀ x, σ2 (x, m x) = σ x) →
    mok s σ = true →
    pok p σ2 = true ∧
      (plive p σ2 = true →
        ∃ σ3, mstep s σ = some σ3 ∧ ∀ x, σ2 (x, m2 x) = σ3 x) := by
  intro muts m c m2 c2 p σ σ2 he hc hm
  cases s with
  | Assume e =>
      simp only [elimS, Option.some.injEq, Prod.mk.injEq] at he
      obtain ⟨hm2, hc2, hp⟩ := he
      subst hm2; subst hc2; subst hp
      refine ⟨rfl, fun hL => ?_⟩
      have hL2 : truthy (evalP σ e) = true := by
        rw [← evalP_renameE m σ2 σ hc e]
        exact hL
      exact ⟨σ, by simp [mstep, hL2], hc⟩
  | Assert l e =>
      simp only [elimS, Option.some.injEq, Prod.mk.injEq] at he
      obtain ⟨hm2, hc2, hp⟩ := he
      subst hm2; subst hc2; subst hp
      have hm' : truthy (evalP σ e) = true := hm
      constructor
      · show truthy (evalP σ2 (renameE m e)) = true
        rw [evalP_renameE m σ2 σ hc e]
        exact hm'
      · exact fun _ => ⟨σ, by simp [mstep, hm'], hc⟩
  | Assign x e =>
      simp only [elimS] at he
      split at he
      · next hx =>
          simp only [Option.some.injEq, Prod.mk.injEq] at he
          obtain ⟨hm2, hc2, hp⟩ := he
          subst hm2; subst hc2; subst hp
          refine ⟨rfl, fun hL => ?_⟩
          have heq : σ2 (x, c x) = evalP σ e := by
            have hL2 : decide (σ2 (x, c x) = evalP σ2 (renameE m e)) = true := hL
            have := of_decide_eq_true hL2
            rwa [evalP_renameE m σ2 σ hc e] at this
          refine ⟨updF σ x (evalP σ e), rfl, fun y => ?_⟩
          by_cases hy : y = x
          · subst hy
            simp [updF, heq]
          · simp [updF, hy, hc y]
      · exact Option.noConfusion he
  | Block ss =>
      simp only [elimS] at he
      cases hL : elimL muts m c ss with
      | none => rw [hL] at he; exact Option.noConfusion he
      | some t =>
          obtain ⟨mI, cI, ps⟩ := t
          rw [hL] at he
          simp only [Option.some.injEq, Prod.mk.injEq] at he
          obtain ⟨hm2, hc2, hp⟩ := he
          subst hm2; subst hc2; subst hp
          have hmk : mokSeq ss σ = true := hm
          obtain ⟨hpok, hcont⟩ :=
            elim_complete_L ss muts m c mI cI ps σ σ2 hL hc hmk
          refine ⟨hpok, fun hv => ?_⟩
          obtain ⟨σ3, hst, _⟩ := hcont hv
          exact ⟨σ, by simp [mstep, hst], hc⟩

/-- The statement-list form of `elim_complete_S`. -/
theorem elim_complete_L (ss : Stmts) : ∀ (muts : List String)
    (m c m2 c2 : String → Nat) (ps : PStmts) (σ : State) (σ2 : GState),
    elimL muts m c ss = some (m2, c2, ps) →
    (∀ x, σ2 (x, m x) = σ x) →
    mokSeq ss σ = true →
    pokL ps σ2 = true ∧
      (pliveL ps σ2 = true →
        ∃ σ3, mstepSeq ss σ = some σ3 ∧ ∀ x, σ2 (x, m2 x) = σ3 x) := by
  intro muts m c m2 c2 ps σ σ2 he hc hm
  cases ss with
  | nil =>
      simp only [elimL, Option.some.injEq, Prod.mk.injEq] at he
      obtain ⟨hm2, hc2, hp⟩ := he
      subst hm2; subst hc2; subst hp
      exact ⟨rfl, fun _ => ⟨σ, rfl, hc⟩⟩
  | cons s r =>
      simp only [elimL] at he
      split at he
      case h_2 => exact Option.noConfusion he
      case h_1 m1 c1 p hs =>
          split at he
          case h_2 => exact Option.noConfusion he
          case h_1 mr cr pr hr =>
              simp only [Option.some.injEq, Prod.mk.injEq] at he
              obtain ⟨hm2, hc2, hp⟩ := he
              subst hm2; subst hc2; subst hp
              have hm' : (mok s σ &&
                  match mstep s σ with
                  | some σ2 => mokSeq r σ2
                  | none => true) = true := hm
              rw [Bool.and_eq_true] at hm'
              obtain ⟨hm1, hm2'⟩ := hm'
              obtain ⟨hpok, hcont⟩ :=
                elim_complete_S s muts m c m1 c1 p σ σ2 hs hc hm1
              have hgoal1 : pokL (.cons p pr) σ2 =
                  (pok p σ2 && (!plive p σ2 || pokL pr σ2)) := rfl
              constructor
              · rw [hgoal1, Bool.and_eq_true]
                refine ⟨hpok, ?_⟩
                cases hL : plive p σ2 with
                | false => simp
                | true =>
                    obtain ⟨σ3, hst, hc3⟩ := hcont hL
                    rw [hst] at hm2'
                    obtain ⟨hpokr, _⟩ :=
                      elim_complete_L r muts m1 c1 mr cr pr σ3 σ2 hr hc3 hm2'
                    simp [hpokr]
              · intro hvl
                have hvl' : (plive p σ2 && pliveL pr σ2) = true := hvl
                rw [Bool.and_eq_true] at hvl'
                obtain ⟨hv1, hv2⟩ := hvl'
                obtain ⟨σ3, hst, hc3⟩ := hcont hv1
                rw [hst] at hm2'
                obtain ⟨_, hcont2⟩ :=
                  elim_complete_L r muts m1 c1 mr cr pr σ3 σ2 hr hc3 hm2'
                obtain ⟨σ4, hseq, hc4⟩ := hcont2 hv2
                exact ⟨σ4, by simp [mstepSeq, hst, hseq], hc4⟩
end

mutual
/-- The replayed counter never decreases. -/
theorem collect_c_mono_S (s : StmtX) : ∀ (r : CollSt) (x : String),
    r.c x ≤ (collectS r s).c x := by
  intro r x
  cases s with
  | Assume e => exact le_rfl
  | Assert l e => exact le_rfl
  | Assign y e =>
      show r.c x ≤ updF r.c y (r.c y + 1) x
      by_cases hy : x = y
      · subst hy; simp [updF]
      · simp [updF, hy]
  | Block ss => exact collect_c_mono_L ss r x

/-- The statement-list form of `collect_c_mono_S`. -/
theorem collect_c_mono_L (ss : Stmts) : ∀ (r : CollSt) (x : String),
    r.c x ≤ (collectL r ss).c x := by
  intro r x
  cases ss with
  | nil => exact le_rfl
  | cons s rest =>
      exact le_trans (collect_c_mono_S s r x)
        (collect_c_mono_L rest (collectS r s) x)
end

mutual
/-- Replaying only writes the valuation at generations at or above the
entry counter: values recorded for generations below it are preserved. -/
theorem collect_g_low_S (s : StmtX) : ∀ (r : CollSt) (x : String) (n : Nat),
    n < r.c x → (collectS r s).g (x, n) = r.g (x, n) := by
  intro r x n hn
  cases s with
  | Assume e => rfl
  | Assert l e => rfl
  | Assign y e =>
      show (if r.live then updF r.g (y, r.c y) (evalP r.st e) else r.g) (x, n) =
        r.g (x, n)
      cases r.live with
      | false => rfl
      | true =>
          show updF r.g (y, r.c y) (evalP r.st e) (x, n) = r.g (x, n)
          rw [updF, if_neg]
          intro hkey
          rw [Prod.mk.injEq] at hkey
          obtain ⟨hxy, hnc⟩ := hkey
          subst hxy
          omega
  | Block ss => exact collect_g_low_L ss r x n hn

/-- The statement-list form of `collect_g_low_S`. -/
theorem collect_g_low_L (ss : Stmts) : ∀ (r : CollSt) (x : String) (n : Nat),
    n < r.c x → (collectL r ss).g (x, n) = r.g (x, n) := by
  intro r x n hn
  cases ss with
  | nil => rfl
  | cons s rest =>
      have h1 := collect_g_low_L rest (collectS r s) x n
        (lt_of_lt_of_le hn (collect_c_mono_S s r x))
      rw [show collectL r (.cons s rest) = collectL (collectS r s) rest from rfl,
        h1, collect_g_low_S s r x n hn]
end

mutual
/-- Replaying preserves the invariant that every current generation is below
the fresh counter. -/
theorem collect_m_lt_S (s : StmtX) : ∀ (r : CollSt),
    (∀ x, r.m x < r.c x) → ∀ x, (collectS r s).m x < (collectS r s).c x := by
  intro r h x
  cases s with
  | Assume e => exact h x
  | Assert l e => exact h x
  | Assign y e =>
      show updF r.m y (r.c y) x < updF r.c y (r.c y + 1) x
      by_cases hy : x = y
      · subst hy; simp [updF]
      · simp [updF, hy]; exact h x
  | Block ss =>
      exact lt_of_lt_of_le (h x) (collect_c_mono_L ss r x)

/-- The statement-list form of `collect_m_lt_S`. -/
theorem collect_m_lt_L (ss : Stmts) : ∀ (r : CollSt),
    (∀ x, r.m x < r.c x) → ∀ x, (collectL r ss).m x < (collectL r ss).c x := by
  intro r h x
  cases ss with
  | nil => exact h x
  | cons s rest =>
      exact collect_m_lt_L rest (collectS r s) (collect_m_lt_S s r h) x
end

mutual
/-- Dead replay records nothing and stays dead. -/
theorem collect_dead_S (s : StmtX) : ∀ (r : CollSt), r.live = false →
    (collectS r s).g = r.g ∧ (collectS r s).live = false := by
  intro r h
  cases s with
  | Assume e => exact ⟨rfl, by show (r.live && _) = false; rw [h]; rfl⟩
  | Assert l e => exact ⟨rfl, by show (r.live && _) = false; rw [h]; rfl⟩
  | Assign y e =>
      constructor
      · show (if r.live then _ else r.g) = r.g
        rw [h]; rfl
      · exact h
  | Block ss => exact collect_dead_L ss r h

/-- The statement-list form of `collect_dead_S`. -/
theorem collect_dead_L (ss : Stmts) : ∀ (r : CollSt), r.live = false →
    (collectL r ss).g = r.g ∧ (collectL r ss).live = false := by
  intro r h
  cases ss with
  | nil => exact ⟨rfl, h⟩
  | cons s rest =>
      obtain ⟨d1g, d1l⟩ := collect_dead_S s r h
      obtain ⟨d2g, d2l⟩ := collect_dead_L rest (collectS r s) d1l
      exact ⟨d2g.trans d1g, d2l⟩
end

mutual
/-- The replay threads the generation map and counter exactly as the
elimination pass does. -/
theorem collect_elim_agree_S (s : StmtX) : ∀ (muts : List String) (r : CollSt)
    (m2 c2 : String → Nat) (p : PStmt),
    elimS muts r.m r.c s = some (m2, c2, p) →
    (collectS r s).m = m2 ∧ (collectS r s).c = c2 := by
  intro muts r m2 c2 p he
  cases s with
  | Assume e =>
      simp only [elimS, Option.some.injEq, Prod.mk.injEq] at he
      exact ⟨he.1, he.2.1⟩
  | Assert l e =>
      simp only [elimS, Option.some.injEq, Prod.mk.injEq] at he
      exact ⟨he.1, he.2.1⟩
  | Assign y e =>
      simp only [elimS] at he
      split at he
      · simp only [Option.some.injEq, Prod.mk.injEq] at he
        exact ⟨he.1, he.2.1⟩
      · exact Option.noConfusion he
  | Block ss =>
      simp only [elimS] at he
      split at he
      case h_2 => exact Option.noConfusion he
      case h_1 mI cI ps hL =>
          simp only [Option.some.injEq, Prod.mk.injEq] at he
          obtain ⟨hm2, hc2, _⟩ := he
          obtain ⟨_, hcc⟩ := collect_elim_agree_L ss muts r mI cI ps hL
          exact ⟨hm2, hcc.trans hc2⟩

/-- The statement-list form of `collect_elim_agree_S`. -/
theorem collect_elim_agree_L (ss : Stmts) : ∀ (muts : List String) (r : CollSt)
    (m2 c2 : String → Nat) (ps : PStmts),
    elimL muts r.m r.c ss = some (m2, c2, ps) →
    (collectL r ss).m = m2 ∧ (collectL r ss).c = c2 := by
  intro muts r m2 c2 ps he
  cases ss with
  | nil =>
      simp only [elimL, Option.some.injEq, Prod.mk.injEq] at he
      exact ⟨he.1, he.2.1⟩
  | cons s rest =>
      simp only [elimL] at he
      split at he
      case h_2 => exact Option.noConfusion he
      case h_1 m1 c1 p hs =>
          split at he
          case h_2 => exact Option.noConfusion he
          case h_1 mr cr pr hr =>
              simp only [Option.some.injEq, Prod.mk.injEq] at he
              obtain ⟨hm2, hc2, _⟩ := he
              obtain ⟨ham, hac⟩ := collect_elim_agree_S s muts r m1 c1 p hs
              rw [← ham, ← hac] at hr
              obtain ⟨hbm, hbc⟩ :=
                collect_elim_agree_L rest muts (collectS r s) mr cr pr hr
              exact ⟨hbm.trans hm2, hbc.trans hc2⟩
end

mutual
/-- Adequacy of assignment elimination: against the valuation built by the
replay, validity of the eliminated statement forces validity of the original
one, the eliminated statement survives exactly when the execution does, and
surviving replay reproduces the execution step together with agreement on
the exit generations. -/
theorem elim_adequate_S (s : StmtX) : ∀ (muts : List String) (r : CollSt)
    (m2 c2 : String → Nat) (p : PStmt) (σ' : GState),
    r.live = true →
    elimS muts r.m r.c s = some (m2, c2, p) →
    (∀ x, r.m x < r.c x) →
    (∀ x, r.g (x, r.m x) = r.st x) →
    (∀ x n, n < (collectS r s).c x → σ' (x, n) = (collectS r s).g (x, n)) →
    (pok p σ' = true → mok s r.st = true) ∧
    plive p σ' = (collectS r s).live ∧
    ((collectS r s).live = true →
      mstep s r.st = some (collectS r s).st ∧
      ∀ x, (collectS r s).g (x, (collectS r s).m x) = (collectS r s).st x) ∧
    ((collectS r s).live = false → mstep s r.st = none) := by
  intro muts r m2 c2 p σ' hl he h1 h2 h3
  cases s with
  | Assume e =>
      simp only [elimS, Option.some.injEq, Prod.mk.injEq] at he
      obtain ⟨hm2, hc2, hp⟩ := he
      subst hm2; subst hc2; subst hp
      have hfun : ∀ y, σ' (y, r.m y) = r.st y := fun y =>
        (h3 y (r.m y) (h1 y)).trans (h2 y)
      have hren : evalP σ' (renameE r.m e) = evalP r.st e :=
        evalP_renameE r.m σ' r.st hfun e
      refine ⟨fun _ => rfl, ?_, fun hlv => ?_, fun hlv => ?_⟩
      · show truthy (evalP σ' (renameE r.m e)) = (r.live && truthy (evalP r.st e))
        rw [hren, hl, Bool.true_and]
      · have ht : truthy (evalP r.st e) = true := by
          have h5 : (r.live && truthy (evalP r.st e)) = true := hlv
          rw [hl, Bool.true_and] at h5
          exact h5
        refine ⟨?_, h2⟩
        show (if truthy (evalP r.st e) then some r.st else none) = some r.st
        simp [ht]
      · have ht : truthy (evalP r.st e) = false := by
          have h5 : (r.live && truthy (evalP r.st e)) = false := hlv
          rw [hl, Bool.true_and] at h5
          exact h5
        show (if truthy (evalP r.st e) then some r.st else none) = none
        simp [ht]
  | Assert l e =>
      simp only [elimS, Option.some.injEq, Prod.mk.injEq] at he
      obtain ⟨hm2, hc2, hp⟩ := he
      subst hm2; subst hc2; subst hp
      have hfun : ∀ y, σ' (y, r.m y) = r.st y := fun y =>
        (h3 y (r.m y) (h1 y)).trans (h2 y)
      have hren : evalP σ' (renameE r.m e) = evalP r.st e :=
        evalP_renameE r.m σ' r.st hfun e
      refine ⟨fun hpo => ?_, ?_, fun hlv => ?_, fun hlv => ?_⟩
      · show truthy (evalP r.st e) = true
        have h5 : truthy (evalP σ' (renameE r.m e)) = true := hpo
        rwa [hren] at h5
      · show truthy (evalP σ' (renameE r.m e)) = (r.live && truthy (evalP r.st e))
        rw [hren, hl, Bool.true_and]
      · have ht : truthy (evalP r.st e) = true := by
          have h5 : (r.live && truthy (evalP r.st e)) = true := hlv
          rw [hl, Bool.true_and] at h5
          exact h5
        refine ⟨?_, h2⟩
        show (if truthy (evalP r.st e) then some r.st else none) = some r.st
        simp [ht]
      · have ht : truthy (evalP r.st e) = false := by
          have h5 : (r.live && truthy (evalP r.st e)) = false := hlv
          rw [hl, Bool.true_and] at h5
          exact h5
        show (if truthy (evalP r.st e) then some r.st else none) = none
        simp [ht]
  | Assign y e =>
      simp only [elimS] at he
      split at he
      · next hy =>
          simp only [Option.some.injEq, Prod.mk.injEq] at he
          obtain ⟨hm2, hc2, hp⟩ := he
          subst hm2; subst hc2; subst hp
          have hg : (collectS r (.Assign y e)).g =
              updF r.g (y, r.c y) (evalP r.st e) := by
            show (if r.live then _ else _) = _
            rw [hl]
            simp
          have hcx : ∀ z, (collectS r (.Assign y e)).c z =
              updF r.c y (r.c y + 1) z := fun z => rfl
          have hfun : ∀ z, σ' (z, r.m z) = r.st z := by
            intro z
            have hlt : r.m z < (collectS r (.Assign y e)).c z := by
              rw [hcx z]
              by_cases hz : z = y
              · subst hz
                simp [updF]
                have := h1 z
                omega
              · simp [updF, hz]
                exact h1 z
            have hs1 := h3 z (r.m z) hlt
            rw [hg, updF] at hs1
            rw [if_neg] at hs1
            · exact hs1.trans (h2 z)
            · intro hkey
              rw [Prod.mk.injEq] at hkey
              obtain ⟨hzy, hmc⟩ := hkey
              subst hzy
              have := h1 z
              omega
          have hren : evalP σ' (renameE r.m e) = evalP r.st e :=
            evalP_renameE r.m σ' r.st hfun e
          have hσy : σ' (y, r.c y) = evalP r.st e := by
            have hlt : r.c y < (collectS r (.Assign y e)).c y := by
              rw [hcx y, updF, if_pos rfl]
              omega
            have hs1 := h3 y (r.c y) hlt
            rw [hg, updF, if_pos rfl] at hs1
            exact hs1
          refine ⟨fun _ => rfl, ?_, fun _ => ⟨rfl, ?_⟩, fun hlv => ?_⟩
          · show truthy (evalBin .eq (σ' (y, r.c y))
                (evalP σ' (renameE r.m e))) = (collectS r (.Assign y e)).live
            rw [hσy, hren]
            show decide (evalP r.st e = evalP r.st e) = r.live
            rw [hl]
            simp
          · intro z
            by_cases hz : z = y
            · subst hz
              show (collectS r (.Assign z e)).g (z, updF r.m z (r.c z) z) =
                updF r.st z (evalP r.st e) z
              rw [hg]
              rw [show updF r.m z (r.c z) z = r.c z from by rw [updF, if_pos rfl]]
              rw [show updF r.g (z, r.c z) (evalP r.st e) (z, r.c z) =
                evalP r.st e from by rw [updF, if_pos rfl]]
              rw [updF, if_pos rfl]
            · show (collectS r (.Assign y e)).g (z, updF r.m y (r.c y) z) =
                updF r.st y (evalP r.st e) z
              rw [hg]
              rw [show updF r.m y (r.c y) z = r.m z from by rw [updF, if_neg hz]]
              rw [show updF r.st y (evalP r.st e) z = r.st z from by
                rw [updF, if_neg hz]]
              rw [show updF r.g (y, r.c y) (evalP r.st e) (z, r.m z) =
                  r.g (z, r.m z) from by
                rw [updF, if_neg]
                intro hkey
                rw [Prod.mk.injEq] at hkey
                exact hz hkey.1]
              exact h2 z
          · exfalso
            have h5 : r.live = false := hlv
            rw [hl] at h5
            exact Bool.noConfusion h5
      · exact Option.noConfusion he
  | Block ss =>
      simp only [elimS] at he
      split at he
      case h_2 => exact Option.noConfusion he
      case h_1 mI cI ps hL =>
        simp only [Option.some.injEq, Prod.mk.injEq] at he
        obtain ⟨hm2, hc2, hp⟩ := he
        subst hm2; subst hc2; subst hp
        obtain ⟨aL, bL, cL, dL⟩ :=
          elim_adequate_L ss muts r mI cI ps σ' hl hL h1 h2 h3
        refine ⟨aL, bL, fun hlv => ?_, fun hlv => ?_⟩
        · obtain ⟨hseq, _⟩ := cL hlv
          refine ⟨?_, ?_⟩
          · show (match mstepSeq ss r.st with
              | some _ => some r.st
              | none => none) = some r.st
            rw [hseq]
          · intro z
            show (collectL r ss).g (z, r.m z) = r.st z
            rw [collect_g_low_L ss r z (r.m z) (h1 z)]
            exact h2 z
        · have hseq := dL hlv
          show (match mstepSeq ss r.st with
            | some _ => some r.st
            | none => none) = none
          rw [hseq]

/-- The statement-list form of `elim_adequate_S`. -/
theorem elim_adequate_L (ss : Stmts) : ∀ (muts : List String) (r : CollSt)
    (m2 c2 : String → Nat) (ps : PStmts) (σ' : GState),
    r.live = true →
    elimL muts r.m r.c ss = some (m2, c2, ps) →
    (∀ x, r.m x < r.c x) →
    (∀ x, r.g (x, r.m x) = r.st x) →
    (∀ x n, n < (collectL r ss).c x → σ' (x, n) = (collectL r ss).g (x, n)) →
    (pokL ps σ' = true → mokSeq ss r.st = true) ∧
    pliveL ps σ' = (collectL r ss).live ∧
    ((collectL r ss).live = true →
      mstepSeq ss r.st = some (collectL r ss).st ∧
      ∀ x, (collectL r ss).g (x, (collectL r ss).m x) = (collectL r ss).st x) ∧
    ((collectL r ss).live = false → mstepSeq ss r.st = none) := by
  intro muts r m2 c2 ps σ' hl he h1 h2 h3
  cases ss with
  | nil =>
      simp only [elimL, Option.some.injEq, Prod.mk.injEq] at he
      obtain ⟨hm2, hc2, hp⟩ := he
      subst hm2; subst hc2; subst hp
      refine ⟨fun _ => rfl, hl.symm, fun _ => ⟨rfl, h2⟩, fun hlv => ?_⟩
      have h5 : r.live = false := hlv
      rw [hl] at h5
      exact Bool.noConfusion h5
  | cons s rest =>
      simp only [elimL] at he
      split at he
      case h_2 => exact Option.noConfusion he
      case h_1 m1 c1 p hs =>
        split at he
        case h_2 => exact Option.noConfusion he
        case h_1 mr cr pr hr =>
          simp only [Option.some.injEq, Prod.mk.injEq] at he
          obtain ⟨hm2, hc2, hp⟩ := he
          subst hm2; subst hc2; subst hp
          have h3s : ∀ x n, n < (collectS r s).c x →
              σ' (x, n) = (collectS r s).g (x, n) := by
            intro x n hn
            have hup := collect_g_low_L rest (collectS r s) x n hn
            have hmono := collect_c_mono_L rest (collectS r s) x
            exact (h3 x n (lt_of_lt_of_le hn hmono)).trans hup
          obtain ⟨as_, bs, cs, ds⟩ :=
            elim_adequate_S s muts r m1 c1 p σ' hl hs h1 h2 h3s
          obtain ⟨ham, hac⟩ := collect_elim_agree_S s muts r m1 c1 p hs
          cases hlv1 : (collectS r s).live with
          | true =>
              obtain ⟨hstep1, hgc1⟩ := cs hlv1
              have hr' : elimL muts (collectS r s).m (collectS r s).c rest =
                  some (mr, cr, pr) := by rw [ham, hac]; exact hr
              obtain ⟨ar, br, cr2, dr⟩ :=
                elim_adequate_L rest muts (collectS r s) mr cr pr σ' hlv1 hr'
                  (collect_m_lt_S s r h1) hgc1 h3
              have hmse : mokSeq (.cons s rest) r.st =
                  (mok s r.st && mokSeq rest (collectS r s).st) := by
                show (mok s r.st && match mstep s r.st with
                  | some σ2 => mokSeq rest σ2
                  | none => true) = _
                rw [hstep1]
              have hsse : mstepSeq (.cons s rest) r.st =
                  mstepSeq rest (collectS r s).st := by
                show (match mstep s r.st with
                  | some σ2 => mstepSeq rest σ2
                  | none => none) = _
                rw [hstep1]
              refine ⟨fun hpo => ?_, ?_, fun hcv => ?_, fun hcv => ?_⟩
              · have hpo' : (pok p σ' && (!plive p σ' || pokL pr σ')) = true := hpo
                rw [Bool.and_eq_true] at hpo'
                obtain ⟨hp1, hp2⟩ := hpo'
                rw [hmse, Bool.and_eq_true]
                refine ⟨as_ hp1, ar ?_⟩
                rw [bs, hlv1] at hp2
                simpa using hp2
              · show (plive p σ' && pliveL pr σ') =
                  (collectL (collectS r s) rest).live
                rw [bs, hlv1, Bool.true_and, br]
              · have hcv' : (collectL (collectS r s) rest).live = true := hcv
                obtain ⟨hseq, hgc⟩ := cr2 hcv'
                refine ⟨?_, ?_⟩
                · show mstepSeq (.cons s rest) r.st =
                    some (collectL (collectS r s) rest).st
                  rw [hsse]
                  exact hseq
                · intro z
                  show (collectL (collectS r s) rest).g
                      (z, (collectL (collectS r s) rest).m z) =
                    (collectL (collectS r s) rest).st z
                  exact hgc z
              · have hcv' : (collectL (collectS r s) rest).live = false := hcv
                rw [hsse]
                exact dr hcv'
          | false =>
              have hstep0 := ds hlv1
              obtain ⟨hdg, hdl⟩ := collect_dead_L rest (collectS r s) hlv1
              have hmse : mokSeq (.cons s rest) r.st = (mok s r.st && true) := by
                show (mok s r.st && match mstep s r.st with
                  | some σ2 => mokSeq rest σ2
                  | none => true) = _
                rw [hstep0]
              have hsse : mstepSeq (.cons s rest) r.st = none := by
                show (match mstep s r.st with
                  | some σ2 => mstepSeq rest σ2
                  | none => none) = _
                rw [hstep0]
              refine ⟨fun hpo => ?_, ?_, fun hcv => ?_, fun _ => hsse⟩
              · have hpo' : (pok p σ' && (!plive p σ' || pokL pr σ')) = true := hpo
                rw [Bool.and_eq_true] at hpo'
                rw [hmse, Bool.and_true]
                exact as_ hpo'.1
              · show (plive p σ' && pliveL pr σ') =
                  (collectL (collectS r s) rest).live
                rw [bs, hlv1, Bool.false_and, hdl]
              · have hcv' : (collectL (collectS r s) rest).live = true := hcv
                rw [hdl] at hcv'
                exact Bool.noConfusion hcv'
end

/-- C2: satisfiability-equivalence of the lowering pipeline.  For every query
statement and set of declared mutable variables on which assignment
elimination succeeds, the query obtained by running the
assignment-elimination pass and then the control-flow-flattening pass is
valid — every emitted labeled implication holds at every valuation of the
generation-stamped constants — exactly when the original statement is valid
at every state. -/
theorem c2_lowering_preserves_validity (muts : List String) (s : StmtX)
    (p : PStmt) (h : elimTop muts s = some p) :
    (∀ σ' : GState, holdsAll (flattenTop p) σ' = true) ↔
    (∀ σ : State, mok s σ = true) := by
  have he : ∃ m2 c2, elimS muts genInit cntInit s = some (m2, c2, p) := by
    simp only [elimTop] at h
    split at h
    case h_1 m2 c2 p' heq =>
        rw [Option.some.injEq] at h
        subst h
        exact ⟨m2, c2, heq⟩
    case h_2 => exact Option.noConfusion h
  obtain ⟨m2, c2, he⟩ := he
  constructor
  · intro hv σ
    obtain ⟨ha, _, _, _⟩ :=
      elim_adequate_S s muts ⟨genInit, cntInit, σ, fun q => σ q.1, true⟩ m2 c2 p
        ((collectS ⟨genInit, cntInit, σ, fun q => σ q.1, true⟩ s).g) rfl he
        (fun x => Nat.zero_lt_one) (fun x => rfl) (fun x n _ => rfl)
    apply ha
    have hf := (flatten_sound_S p []
      ((collectS ⟨genInit, cntInit, σ, fun q => σ q.1, true⟩ s).g)).1
    exact hf.mp (hv _) rfl
  · intro hm σ'
    have hf := (flatten_sound_S p [] σ').1
    show holdsAll (flattenTop p) σ' = true
    apply hf.mpr
    intro _
    obtain ⟨hp, _⟩ :=
      elim_complete_S s muts genInit cntInit m2 c2 p (fun x => σ' (x, 0)) σ' he
        (fun x => rfl) (hm _)
    exact hp

/-- Witness for C2: the lowering of `c2s0` succeeds and the equivalence holds
for it. -/
theorem c2_lowering_preserves_validity_witness :
    elimTop ["x"] c2s0 = some c2p0 ∧
    ((∀ σ' : GState, holdsAll (flattenTop c2p0) σ' = true) ↔
      (∀ σ : State, mok c2s0 σ = true)) :=
  ⟨rfl, c2_lowering_preserves_validity ["x"] c2s0 c2p0 rfl⟩
